import Mathlib

/-
Shallow embedding of src/Projects/DeepL-MTool-Autotranslator/deepl_translator.py.

Python strings are modelled as lists of unicode scalar values (Lean Char).
Python dicts (string to string) are modelled as insertion-ordered association
lists: inserting an existing key updates it in place, a new key is appended,
which matches CPython dict semantics.

The lowercasing performed by str.lower is modelled as per-character ASCII
case folding (Char.toLower).  Every entry of the hard-coded allow-list is
pure ASCII, so this agrees with Python on all inputs except exotic unicode
characters whose lowercase form is ASCII (for example the Kelvin sign);
those are outside the model.
-/

abbrev Str := List Char

/-- Decides whether a string consists only of 7-bit characters.  Models the
Python probe text.encode with the ascii codec, which succeeds exactly when
every code point is below 128. -/
def isAscii (s : Str) : Bool :=
  s.all (fun c => c.toNat < 128)

/-- Per-character lowercasing, modelling str.lower restricted to ASCII case
folding (see the header comment). -/
def lowerStr (s : Str) : Str :=
  s.map Char.toLower

/-- Decides the Python substring operator: containsSub pat text is true when
pat occurs contiguously inside text.  The empty pattern occurs in every
text, as in Python. -/
def containsSub : Str → Str → Bool
  | pat, [] => pat.isEmpty
  | pat, c :: rest => pat.isPrefixOf (c :: rest) || containsSub pat rest

/-- The hard-coded allow-list english_patterns from is_already_translated. -/
def english_patterns : List Str :=
  ["Scene".toList, "Attack".toList, "Fire".toList, "Ice".toList,
   "Thunder".toList, "Water".toList, "Wind".toList,
   "Heal".toList, "Magic".toList, "Battle".toList, "Save".toList,
   "Load".toList, "Menu".toList, "Title".toList,
   "false".toList, "true".toList, "ON".toList, "OFF".toList,
   "Graphics".toList, "Data".toList, "Window".toList]

/-- Embedding of DeepLTranslator.is_already_translated: first the ASCII
probe (pure ASCII means skip), then the case-insensitive allow-list
substring scan. -/
def is_already_translated (text : Str) : Bool :=
  if isAscii text then true
  else english_patterns.any (fun pat => containsSub (lowerStr pat) (lowerStr text))

/-- Embedding of the Python str.endswith test used on the API key: the
pattern must be a suffix of the string. -/
def strEndsWith (s pat : Str) : Bool :=
  pat.length ≤ s.length && s.drop (s.length - pat.length) == pat

/-- The free-tier marker suffix checked on the credential. -/
def fxSuffix : Str := ":fx".toList

/-- The free-tier endpoint URL assigned first in DeepLTranslator.init. -/
def free_url : Str := "https://api-free.deepl.com/v2/translate".toList

/-- The paid endpoint URL assigned when the key does not end in the marker. -/
def paid_url : Str := "https://api.deepl.com/v2/translate".toList

/-- Embedding of the endpoint selection in DeepLTranslator.init: the free
URL is assigned, then overwritten by the paid URL unless the key ends with
the marker. -/
def api_url (api_key : Str) : Str :=
  if strEndsWith api_key fxSuffix then free_url else paid_url

/- Correctness of the decision procedures, relating them to the
propositional statements used by the claims. -/

theorem isPrefixOf_iff (pat l : Str) :
    pat.isPrefixOf l = true ↔ ∃ r, l = pat ++ r := by
  constructor
  · intro h
    have h' : pat <+: l := List.isPrefixOf_iff_prefix.mp h
    obtain ⟨r, hr⟩ := h'
    exact ⟨r, hr.symm⟩
  · rintro ⟨r, rfl⟩
    exact List.isPrefixOf_iff_prefix.mpr ⟨r, rfl⟩

theorem containsSub_iff (pat text : Str) :
    containsSub pat text = true ↔ ∃ l r, text = l ++ pat ++ r := by
  induction text with
  | nil =>
    simp only [containsSub, List.isEmpty_iff]
    constructor
    · rintro rfl
      exact ⟨[], [], rfl⟩
    · rintro ⟨l, r, h⟩
      exact (List.append_eq_nil.mp (List.append_eq_nil.mp h.symm).1).2
  | cons c rest ih =>
    simp only [containsSub, Bool.or_eq_true, isPrefixOf_iff, ih]
    constructor
    · rintro (⟨r, hr⟩ | ⟨l, r, hr⟩)
      · exact ⟨[], r, by simpa using hr⟩
      · exact ⟨c :: l, r, by simp [hr]⟩
    · rintro ⟨l, r, hr⟩
      cases l with
      | nil => exact Or.inl ⟨r, by simpa using hr⟩
      | cons x xs =>
        right
        refine ⟨xs, r, ?_⟩
        have := hr
        simp only [List.cons_append] at this
        exact (List.cons_eq_cons.mp this).2

theorem strEndsWith_iff (s pat : Str) :
    strEndsWith s pat = true ↔ ∃ l, s = l ++ pat := by
  unfold strEndsWith
  rw [Bool.and_eq_true, decide_eq_true_iff, beq_iff_eq]
  constructor
  · rintro ⟨hle, hdrop⟩
    have h := List.take_append_drop (s.length - pat.length) s
    rw [hdrop] at h
    exact ⟨s.take (s.length - pat.length), h.symm⟩
  · rintro ⟨l, rfl⟩
    have hlen : (l ++ pat).length = l.length + pat.length := List.length_append l pat
    constructor
    · omega
    · have : (l ++ pat).length - pat.length = l.length := by omega
      rw [this, List.drop_left]

/- Python dict model: insertion-ordered association lists. -/

/-- Insert-or-update for a Python dict: an existing key keeps its position
and gets the new value, a new key is appended at the end. -/
def dinsert (k v : Str) : List (Str × Str) → List (Str × Str)
  | [] => [(k, v)]
  | (k0, v0) :: rest => if k0 = k then (k0, v) :: rest else (k0, v0) :: dinsert k v rest

/-- Python dict lookup by key. -/
def dlookup (k : Str) : List (Str × Str) → Option Str
  | [] => none
  | (k0, v0) :: rest => if k0 = k then some v0 else dlookup k rest

/-- Python dict.update: insert every pair of the second dict into the first,
in order. -/
def dictUpdate (d new : List (Str × Str)) : List (Str × Str) :=
  new.foldl (fun acc kv => dinsert kv.1 kv.2 acc) d

/-- The dict comprehension returning each text mapped to itself, used both
for the no-call shortcut and for the failure fallback in translate_batch. -/
def identityDict (texts : List Str) : List (Str × Str) :=
  texts.foldl (fun d t => dinsert t t d) []

/- Model of the remote call environment of translate_batch. -/

/-- Outcome of the HTTP exchange as translate_batch can observe it.  The
first three constructors are the failures that requests raises as
RequestException subclasses and that the except clause catches: a transport
error from requests.post, a non-2xx status surfaced by raise_for_status,
and a response body that is not JSON (requests.exceptions.JSONDecodeError,
a RequestException subclass in requests 2.27 and later).  The ok
constructor is a parsed JSON body, abstracted to the part the code reads:
none means the body has no translations key (so indexing raises KeyError),
and each array element is some text or none when it lacks a text field. -/
inductive RemoteResponse where
  | networkError : RemoteResponse
  | httpError : RemoteResponse
  | nonJsonBody : RemoteResponse
  | ok : Option (List (Option Str)) → RemoteResponse
deriving DecidableEq

/-- Python exceptions that escape translate_batch because the except clause
only catches RequestException. -/
inductive PyExc where
  | keyError : PyExc
  | indexError : PyExc
deriving DecidableEq

/-- Observable outcome of one translate_batch call: a returned dict
together with whether a remote call was issued and whether time.sleep ran,
or an uncaught Python exception. -/
inductive BatchOutcome where
  | ok : List (Str × Str) → Bool → Bool → BatchOutcome
  | raised : PyExc → BatchOutcome
deriving DecidableEq

/-- The texts_to_translate list built by the first loop of translate_batch:
the inputs on which the heuristic says translation is needed, in order. -/
def texts_to_translate (texts : List Str) : List Str :=
  texts.filter (fun t => !(is_already_translated t))

/-- Configuration record, with the fields read from config.json. -/
structure TranslatorConfig where
  deepl_api_key : Str
  source_language : Str
  target_language : Str
  delay_between_requests : Nat
  batch_size : Nat
  input_file : Str
  output_file : Str
deriving DecidableEq

/-- The JSON payload of the POST request built by translate_batch. -/
structure Payload where
  text : List Str
  source_lang : Str
  target_lang : Str
  model_type : Str
deriving DecidableEq

/-- Builds the payload exactly as translate_batch does. -/
def mkPayload (cfg : TranslatorConfig) (texts : List Str) : Payload :=
  { text := texts_to_translate texts,
    source_lang := cfg.source_language,
    target_lang := cfg.target_language,
    model_type := "prefer_quality_optimized".toList }

/-- The merge loop of translate_batch: walk the original texts, re-query
the heuristic, map skipped texts to themselves and consume
translations[translation_index].text for the others, incrementing the
index.  An index past the end of the array is a Python IndexError; an
element without a text field is a KeyError.  Both escape the function. -/
def assembleResults :
    List Str → List (Option Str) → Nat → List (Str × Str) →
      Except PyExc (List (Str × Str))
  | [], _, _, acc => Except.ok acc
  | t :: rest, translations, idx, acc =>
    if is_already_translated t then
      assembleResults rest translations idx (dinsert t t acc)
    else
      match translations.get? idx with
      | none => Except.error PyExc.indexError
      | some none => Except.error PyExc.keyError
      | some (some tr) => assembleResults rest translations (idx + 1) (dinsert t tr acc)

/-- Embedding of DeepLTranslator.translate_batch.  The remote exchange is
a parameter.  When no text needs translation the identity dict is returned
with no call and no sleep; a caught RequestException also yields the
identity dict, after a call but without the sleep (the exception skips the
time.sleep line); on a parsed body the merge loop runs and, when it
finishes, time.sleep runs before the dict is returned. -/
def translate_batch (texts : List Str) (resp : RemoteResponse) : BatchOutcome :=
  if (texts_to_translate texts).isEmpty then
    BatchOutcome.ok (identityDict texts) false false
  else
    match resp with
    | RemoteResponse.networkError => BatchOutcome.ok (identityDict texts) true false
    | RemoteResponse.httpError => BatchOutcome.ok (identityDict texts) true false
    | RemoteResponse.nonJsonBody => BatchOutcome.ok (identityDict texts) true false
    | RemoteResponse.ok none => BatchOutcome.raised PyExc.keyError
    | RemoteResponse.ok (some translations) =>
      match assembleResults texts translations 0 [] with
      | Except.error e => BatchOutcome.raised e
      | Except.ok results => BatchOutcome.ok results true true

/- Model of the orchestrator translate_json_file. -/

/-- Recursion kernel for the batch slicing: one step per loop iteration of
the range loop, with a structural fuel bounding the number of iterations so
that the definition computes by reduction.  For a nonempty list, one slice
of at most B elements is emitted and B elements are dropped; note that for
B at least 1, xs.drop (B - 1) equals (x :: xs).drop B. -/
def chunkGo (B : Nat) : Nat → List Str → List (List Str)
  | _, [] => []
  | 0, _ :: _ => []
  | fuel + 1, x :: xs => ((x :: xs).take B) :: chunkGo B fuel (xs.drop (B - 1))

/-- The batch slicing of the key list performed by the range loop in
translate_json_file: keys[i : i + B] for i = 0, B, 2B, ...  The list length
is enough fuel, since every iteration consumes at least one element when B
is at least 1 (Python raises ValueError on a zero step, so B = 0 is
outside the model). -/
def chunkList (B : Nat) (l : List Str) : List (List Str) :=
  chunkGo B l.length l

/-- The per-batch loop of translate_json_file: call translate_batch on
each chunk with that batch's remote exchange and merge the returned dict
into the accumulator with dict.update.  An exception raised by a batch
propagates and aborts the run. -/
def runBatches (resp : Nat → RemoteResponse) :
    List (List Str) → Nat → List (Str × Str) → Except PyExc (List (Str × Str))
  | [], _, acc => Except.ok acc
  | b :: bs, i, acc =>
    match translate_batch b (resp i) with
    | BatchOutcome.raised e => Except.error e
    | BatchOutcome.ok results _ _ => runBatches resp bs (i + 1) (dictUpdate acc results)

/-- Embedding of translate_json_file on an already loaded document: slice
the key list into batches of size B and fold the batch results into the
output dict, which is then serialized.  The remote exchanges are a
parameter indexed by batch number. -/
def translate_json_file (B : Nat) (keys : List Str)
    (resp : Nat → RemoteResponse) : Except PyExc (List (Str × Str)) :=
  runBatches resp (chunkList B keys) 0 []

/- Model of the process-level control flow of main. -/

/-- What reading and parsing config.json can yield. -/
inductive ConfigSource where
  | missing : ConfigSource
  | invalidJson : ConfigSource
  | parsed : TranslatorConfig → ConfigSource
deriving DecidableEq

/-- What reading and parsing the input document can yield; only its key
list matters to the pipeline. -/
inductive InputSource where
  | missing : InputSource
  | present : List Str → InputSource
deriving DecidableEq

/-- Process-level result: either termination with an exit code and a flag
recording whether the output file was written before dying, or normal
completion with the dict written to the output file. -/
inductive ProgResult where
  | exited : Nat → Bool → ProgResult
  | completed : List (Str × Str) → ProgResult
deriving DecidableEq

/-- The placeholder credential rejected by load_config. -/
def placeholder_key : Str := "YOUR_DEEPL_API_KEY_HERE".toList

/-- Embedding of main: load_config exits with status 1 on a missing file
or invalid JSON; a placeholder credential raises ValueError, which no
except clause catches, so the interpreter terminates with status 1 as
well.  Then translate_json_file exits with status 1 if the input document
is missing, before the output file is opened; an uncaught exception from a
batch also kills the process with status 1 before the output is written.
Otherwise the accumulated dict is written and the process ends normally. -/
def run_program (cfgSrc : ConfigSource) (inp : InputSource)
    (resp : Nat → RemoteResponse) : ProgResult :=
  match cfgSrc with
  | ConfigSource.missing => ProgResult.exited 1 false
  | ConfigSource.invalidJson => ProgResult.exited 1 false
  | ConfigSource.parsed cfg =>
    if cfg.deepl_api_key = placeholder_key then ProgResult.exited 1 false
    else
      match inp with
      | InputSource.missing => ProgResult.exited 1 false
      | InputSource.present keys =>
        match translate_json_file cfg.batch_size keys resp with
        | Except.error _ => ProgResult.exited 1 false
        | Except.ok m => ProgResult.completed m

/-- Reference walk following the wording of the spec: skipped strings map
to themselves, the others consume the response translations in order.
Used to state the success-path claim against translate_batch. -/
def mergeSpec : List Str → List Str → List (Str × Str)
  | [], _ => []
  | t :: rest, trs =>
    if is_already_translated t then (t, t) :: mergeSpec rest trs
    else
      match trs with
      | [] => []
      | tr :: trs0 => (t, tr) :: mergeSpec rest trs0

/- Lemmas about the dict model. -/

theorem dlookup_dinsert_self (k v : Str) (d : List (Str × Str)) :
    dlookup k (dinsert k v d) = some v := by
  induction d with
  | nil => simp [dinsert, dlookup]
  | cons p rest ih =>
    obtain ⟨k0, v0⟩ := p
    by_cases hk : k0 = k
    · simp [dinsert, dlookup, hk]
    · simp [dinsert, dlookup, hk, ih]

theorem dlookup_dinsert_ne (k0 k v : Str) (d : List (Str × Str)) (h : k0 ≠ k) :
    dlookup k0 (dinsert k v d) = dlookup k0 d := by
  induction d with
  | nil =>
    have hne : ¬(k = k0) := fun hh => h hh.symm
    simp [dinsert, dlookup, hne]
  | cons p rest ih =>
    obtain ⟨k1, v1⟩ := p
    by_cases hk : k1 = k
    · subst hk
      have hne : ¬(k1 = k0) := fun hh => h hh.symm
      simp [dinsert, dlookup, hne]
    · by_cases hk0 : k1 = k0
      · simp [dinsert, dlookup, hk, hk0, h]
      · simp [dinsert, dlookup, hk, hk0, ih]

theorem dinsert_append (k v : Str) (d : List (Str × Str))
    (h : k ∉ d.map Prod.fst) :
    dinsert k v d = d ++ [(k, v)] := by
  induction d with
  | nil => rfl
  | cons p rest ih =>
    obtain ⟨k0, v0⟩ := p
    simp only [List.map_cons, List.mem_cons] at h
    push_neg at h
    simp only [dinsert, if_neg (fun hh : k0 = k => h.1 hh.symm), List.cons_append,
      List.cons.injEq, true_and]
    exact ih h.2

theorem nodup_shift (ks : List Str) (t : Str) (rest : List Str)
    (h : (ks ++ t :: rest).Nodup) : ((ks ++ [t]) ++ rest).Nodup := by
  rwa [← List.append_cons]

theorem notmem_of_nodup_middle (ks : List Str) (t : Str) (rest : List Str)
    (h : (ks ++ t :: rest).Nodup) : t ∉ ks := by
  rcases List.nodup_append.mp h with ⟨h1, h2, hdisj⟩
  intro hmem
  exact hdisj hmem (List.mem_cons_self t rest)

theorem foldl_dinsert_self_lookup (texts : List Str) :
    ∀ (acc : List (Str × Str)) (t : Str),
      (t ∈ texts ∨ dlookup t acc = some t) →
      dlookup t (texts.foldl (fun d x => dinsert x x d) acc) = some t := by
  induction texts with
  | nil =>
    intro acc t h
    rcases h with hmem | hl
    · cases List.not_mem_nil t hmem
    · exact hl
  | cons x rest ih =>
    intro acc t h
    simp only [List.foldl_cons]
    apply ih
    rcases h with hmem | hl
    · rcases List.mem_cons.mp hmem with rfl | hmem0
      · exact Or.inr (dlookup_dinsert_self t t acc)
      · exact Or.inl hmem0
    · by_cases hx : t = x
      · subst hx
        exact Or.inr (dlookup_dinsert_self t t acc)
      · exact Or.inr (by rw [dlookup_dinsert_ne t x x acc hx]; exact hl)

theorem identityDict_lookup (texts : List Str) (t : Str) (h : t ∈ texts) :
    dlookup t (identityDict texts) = some t :=
  foldl_dinsert_self_lookup texts [] t (Or.inl h)

theorem foldl_dinsert_self_keys (texts : List Str) :
    ∀ (acc : List (Str × Str)),
      (acc.map Prod.fst ++ texts).Nodup →
      (texts.foldl (fun d x => dinsert x x d) acc).map Prod.fst
        = acc.map Prod.fst ++ texts := by
  induction texts with
  | nil => intro acc h; simp
  | cons x rest ih =>
    intro acc h
    have hx : x ∉ acc.map Prod.fst := notmem_of_nodup_middle _ _ _ h
    simp only [List.foldl_cons]
    rw [dinsert_append x x acc hx]
    have hkeys : (acc ++ [(x, x)]).map Prod.fst = acc.map Prod.fst ++ [x] := by
      simp
    have hnd : ((acc ++ [(x, x)]).map Prod.fst ++ rest).Nodup := by
      rw [hkeys]; exact nodup_shift _ _ _ h
    rw [ih (acc ++ [(x, x)]) hnd, hkeys]
    simp

theorem identityDict_keys (texts : List Str) (h : texts.Nodup) :
    (identityDict texts).map Prod.fst = texts := by
  have := foldl_dinsert_self_keys texts [] (by simpa)
  simpa using this

theorem dictUpdate_keys (new : List (Str × Str)) :
    ∀ (acc : List (Str × Str)),
      (acc.map Prod.fst ++ new.map Prod.fst).Nodup →
      (dictUpdate acc new).map Prod.fst = acc.map Prod.fst ++ new.map Prod.fst := by
  induction new with
  | nil => intro acc h; simp [dictUpdate]
  | cons p rest ih =>
    intro acc h
    obtain ⟨k, v⟩ := p
    simp only [List.map_cons] at h
    have hk : k ∉ acc.map Prod.fst := notmem_of_nodup_middle _ _ _ h
    simp only [dictUpdate, List.foldl_cons]
    have step : dinsert k v acc = acc ++ [(k, v)] := dinsert_append k v acc hk
    rw [step]
    have hkeys : (acc ++ [(k, v)]).map Prod.fst = acc.map Prod.fst ++ [k] := by
      simp
    have hnd : ((acc ++ [(k, v)]).map Prod.fst ++ rest.map Prod.fst).Nodup := by
      rw [hkeys]; exact nodup_shift _ _ _ h
    have := ih (acc ++ [(k, v)])
    simp only [dictUpdate] at this
    rw [this hnd, hkeys]
    simp

/- Lemmas about the merge loop of translate_batch. -/

theorem assembleResults_keys (texts : List Str) :
    ∀ (translations : List (Option Str)) (idx : Nat)
      (acc res : List (Str × Str)),
      (acc.map Prod.fst ++ texts).Nodup →
      assembleResults texts translations idx acc = Except.ok res →
      res.map Prod.fst = acc.map Prod.fst ++ texts := by
  induction texts with
  | nil =>
    intro translations idx acc res hnd h
    simp only [assembleResults, Except.ok.injEq] at h
    subst h
    simp
  | cons t rest ih =>
    intro translations idx acc res hnd h
    have ht : t ∉ acc.map Prod.fst := notmem_of_nodup_middle _ _ _ hnd
    have hstep : dinsert t t acc = acc ++ [(t, t)] := dinsert_append t t acc ht
    by_cases hskip : is_already_translated t
    · simp only [assembleResults, if_pos hskip] at h
      rw [hstep] at h
      have hnd2 : ((acc ++ [(t, t)]).map Prod.fst ++ rest).Nodup := by
        simp only [List.map_append, List.map_cons, List.map_nil]
        exact nodup_shift _ _ _ hnd
      have := ih translations idx (acc ++ [(t, t)]) res hnd2 h
      rw [this]
      simp
    · simp only [assembleResults, if_neg hskip] at h
      match hget : translations.get? idx with
      | none => rw [hget] at h; cases h
      | some none => rw [hget] at h; cases h
      | some (some tr) =>
        rw [hget] at h
        have h2 : assembleResults rest translations (idx + 1) (dinsert t tr acc)
            = Except.ok res := h
        have hstep2 : dinsert t tr acc = acc ++ [(t, tr)] := dinsert_append t tr acc ht
        rw [hstep2] at h2
        have hnd2 : ((acc ++ [(t, tr)]).map Prod.fst ++ rest).Nodup := by
          simp only [List.map_append, List.map_cons, List.map_nil]
          exact nodup_shift _ _ _ hnd
        have := ih translations (idx + 1) (acc ++ [(t, tr)]) res hnd2 h2
        rw [this]
        simp

theorem assembleResults_ok (texts : List Str) :
    ∀ (translations : List (Option Str)) (idx : Nat) (acc : List (Str × Str)),
      idx + (texts_to_translate texts).length ≤ translations.length →
      (∀ o ∈ translations, o ≠ none) →
      ∃ res, assembleResults texts translations idx acc = Except.ok res := by
  induction texts with
  | nil =>
    intro translations idx acc hlen hsome
    exact ⟨acc, rfl⟩
  | cons t rest ih =>
    intro translations idx acc hlen hsome
    by_cases hskip : is_already_translated t
    · have hfil : texts_to_translate (t :: rest) = texts_to_translate rest := by
        simp [texts_to_translate, List.filter_cons, hskip]
      rw [hfil] at hlen
      simp only [assembleResults, if_pos hskip]
      exact ih translations idx (dinsert t t acc) hlen hsome
    · have hfil : (texts_to_translate (t :: rest)).length
          = (texts_to_translate rest).length + 1 := by
        simp [texts_to_translate, List.filter_cons, hskip]
      rw [hfil] at hlen
      have hidx : idx < translations.length := by omega
      have hget := List.get?_eq_get hidx
      have hmem : translations.get ⟨idx, hidx⟩ ∈ translations := translations.get_mem _ _
      match hval : translations.get ⟨idx, hidx⟩ with
      | none => exact absurd rfl (by rw [hval] at hmem; exact hsome none hmem)
      | some tr =>
        rw [hval] at hget
        simp only [assembleResults, if_neg hskip, hget]
        exact ih translations (idx + 1) (dinsert t tr acc) (by omega) hsome

theorem assembleResults_ext (texts : List Str) :
    ∀ (tr1 tr2 : List (Option Str)) (idx : Nat) (acc : List (Str × Str)),
      (∀ j, idx ≤ j → j < idx + (texts_to_translate texts).length →
        tr1.get? j = tr2.get? j) →
      assembleResults texts tr1 idx acc = assembleResults texts tr2 idx acc := by
  induction texts with
  | nil => intro tr1 tr2 idx acc hext; rfl
  | cons t rest ih =>
    intro tr1 tr2 idx acc hext
    by_cases hskip : is_already_translated t
    · have hfil : texts_to_translate (t :: rest) = texts_to_translate rest := by
        simp [texts_to_translate, List.filter_cons, hskip]
      rw [hfil] at hext
      simp only [assembleResults, if_pos hskip]
      exact ih tr1 tr2 idx (dinsert t t acc) hext
    · have hfil : (texts_to_translate (t :: rest)).length
          = (texts_to_translate rest).length + 1 := by
        simp [texts_to_translate, List.filter_cons, hskip]
      rw [hfil] at hext
      have hhead : tr1.get? idx = tr2.get? idx := hext idx (Nat.le_refl idx) (by omega)
      simp only [assembleResults, if_neg hskip, ← hhead]
      match tr1.get? idx with
      | none => rfl
      | some none => rfl
      | some (some tr) =>
        exact ih tr1 tr2 (idx + 1) (dinsert t tr acc)
          (fun j h1 h2 => hext j (by omega) (by omega))

theorem assembleResults_val (texts : List Str) :
    ∀ (trs : List Str) (idx : Nat) (acc : List (Str × Str)),
      (acc.map Prod.fst ++ texts).Nodup →
      idx + (texts_to_translate texts).length ≤ trs.length →
      assembleResults texts (trs.map some) idx acc
        = Except.ok (acc ++ mergeSpec texts (trs.drop idx)) := by
  induction texts with
  | nil =>
    intro trs idx acc hnd hlen
    simp [assembleResults, mergeSpec]
  | cons t rest ih =>
    intro trs idx acc hnd hlen
    have ht : t ∉ acc.map Prod.fst := notmem_of_nodup_middle _ _ _ hnd
    have hnd2 : ∀ v : Str, ((acc ++ [(t, v)]).map Prod.fst ++ rest).Nodup := by
      intro v
      simp only [List.map_append, List.map_cons, List.map_nil]
      exact nodup_shift _ _ _ hnd
    by_cases hskip : is_already_translated t
    · have hfil : texts_to_translate (t :: rest) = texts_to_translate rest := by
        simp [texts_to_translate, List.filter_cons, hskip]
      rw [hfil] at hlen
      simp only [assembleResults, if_pos hskip]
      rw [dinsert_append t t acc ht, ih trs idx (acc ++ [(t, t)]) (hnd2 t) hlen]
      simp [mergeSpec, hskip]
    · have hfil : (texts_to_translate (t :: rest)).length
          = (texts_to_translate rest).length + 1 := by
        simp [texts_to_translate, List.filter_cons, hskip]
      rw [hfil] at hlen
      have hidx : idx < trs.length := by omega
      have hget : (trs.map some).get? idx = some (some (trs.get ⟨idx, hidx⟩)) := by
        rw [List.get?_map, List.get?_eq_get hidx]
        rfl
      simp only [assembleResults, if_neg hskip, hget]
      rw [dinsert_append t (trs.get ⟨idx, hidx⟩) acc ht,
        ih trs (idx + 1) (acc ++ [(t, trs.get ⟨idx, hidx⟩)]) (hnd2 _) (by omega)]
      have hdrop : trs.drop idx = trs.get ⟨idx, hidx⟩ :: trs.drop (idx + 1) :=
        List.drop_eq_get_cons hidx
      rw [hdrop]
      simp [mergeSpec, hskip]

theorem assembleResults_empty_trans (texts : List Str) :
    ∀ (idx : Nat) (acc : List (Str × Str)),
      texts_to_translate texts ≠ [] →
      assembleResults texts [] idx acc = Except.error PyExc.indexError := by
  induction texts with
  | nil => intro idx acc hne; exact absurd rfl hne
  | cons t rest ih =>
    intro idx acc hne
    by_cases hskip : is_already_translated t
    · have hfil : texts_to_translate (t :: rest) = texts_to_translate rest := by
        simp [texts_to_translate, List.filter_cons, hskip]
      rw [hfil] at hne
      simp only [assembleResults, if_pos hskip]
      exact ih idx (dinsert t t acc) hne
    · simp [assembleResults, if_neg hskip]

theorem assembleResults_noText (texts : List Str) :
    ∀ (acc : List (Str × Str)),
      texts_to_translate texts ≠ [] →
      assembleResults texts [none] 0 acc = Except.error PyExc.keyError := by
  induction texts with
  | nil => intro acc hne; exact absurd rfl hne
  | cons t rest ih =>
    intro acc hne
    by_cases hskip : is_already_translated t
    · have hfil : texts_to_translate (t :: rest) = texts_to_translate rest := by
        simp [texts_to_translate, List.filter_cons, hskip]
      rw [hfil] at hne
      simp only [assembleResults, if_pos hskip]
      exact ih (dinsert t t acc) hne
    · simp [assembleResults, if_neg hskip]

/- Arithmetic helpers for the batch-count bookkeeping. -/

theorem nat_div_step (N B : Nat) (hB : 1 ≤ B) (hN : 1 ≤ N) :
    (N - B + B - 1) / B + 1 = (N + B - 1) / B := by
  rcases le_or_lt N B with hle | hlt
  · have h0 : N - B = 0 := by omega
    rw [h0]
    have hz : (0 + B - 1) / B = 0 := Nat.div_eq_of_lt (by omega)
    rw [hz]
    have h1 : (N + B - 1) / B = 1 := by
      apply Nat.div_eq_of_lt_le
      · omega
      · omega
    omega
  · have heq : N - B + B - 1 = N - 1 := by omega
    have heq2 : N + B - 1 = (N - 1) + B := by omega
    rw [heq, heq2, Nat.add_div_right _ (by omega)]

theorem nat_divmod_sub (N B : Nat) (hB : 1 ≤ B) (hN : B ≤ N) :
    N / B = (N - B) / B + 1 ∧ N % B = (N - B) % B := by
  have hNB : N - B + B = N := by omega
  constructor
  · conv_lhs => rw [← hNB]
    rw [Nat.add_div_right _ (by omega)]
  · conv_lhs => rw [← hNB]
    rw [Nat.add_mod_right]

/- The partition produced by the batching loop. -/

theorem chunkGo_spec (B : Nat) (hB : 1 ≤ B) :
    ∀ (fuel : Nat) (l : List Str), l.length ≤ fuel →
      (chunkGo B fuel l).flatten = l ∧
      (chunkGo B fuel l).length = (l.length + B - 1) / B ∧
      (chunkGo B fuel l).map List.length
        = List.replicate (l.length / B) B ++
          (if l.length % B = 0 then [] else [l.length % B]) := by
  intro fuel
  induction fuel with
  | zero =>
    intro l hl
    have hnil : l = [] := List.eq_nil_of_length_eq_zero (Nat.le_zero.mp hl)
    subst hnil
    refine ⟨rfl, ?_, ?_⟩
    · simp [chunkGo, Nat.div_eq_of_lt (show B - 1 < B by omega)]
    · simp [chunkGo]
  | succ n ih =>
    intro l hl
    cases l with
    | nil =>
      refine ⟨rfl, ?_, ?_⟩
      · simp [chunkGo, Nat.div_eq_of_lt (show B - 1 < B by omega)]
      · simp [chunkGo]
    | cons x xs =>
      obtain ⟨B0, rfl⟩ : ∃ B0, B = B0 + 1 := ⟨B - 1, by omega⟩
      have hstep : chunkGo (B0 + 1) (n + 1) (x :: xs)
          = ((x :: xs).take (B0 + 1)) :: chunkGo (B0 + 1) n (xs.drop B0) := by
        simp [chunkGo]
      have hdropeq : xs.drop B0 = (x :: xs).drop (B0 + 1) := by
        simp [List.drop_succ_cons]
      have hrestlen : (xs.drop B0).length = (x :: xs).length - (B0 + 1) := by
        simp only [List.length_drop, List.length_cons]
        omega
      have hrest_le : (xs.drop B0).length ≤ n := by
        simp only [List.length_drop]
        simp only [List.length_cons] at hl
        omega
      obtain ⟨ihj, ihlen, ihsizes⟩ := ih (xs.drop B0) hrest_le
      have hN1 : 1 ≤ (x :: xs).length := by simp
      refine ⟨?_, ?_, ?_⟩
      · rw [hstep]
        simp only [List.flatten_cons]
        rw [ihj, hdropeq, List.take_append_drop]
      · rw [hstep]
        simp only [List.length_cons]
        rw [ihlen, hrestlen]
        exact nat_div_step (x :: xs).length (B0 + 1) hB hN1
      · rw [hstep]
        simp only [List.map_cons]
        rw [ihsizes, hrestlen]
        rcases Nat.lt_or_ge (x :: xs).length (B0 + 1) with hlt | hge
        · have hz : (x :: xs).length - (B0 + 1) = 0 := by omega
          have htl : ((x :: xs).take (B0 + 1)).length = (x :: xs).length := by
            rw [List.length_take]
            omega
          have hd0 : (x :: xs).length / (B0 + 1) = 0 := Nat.div_eq_of_lt hlt
          have hm0 : (x :: xs).length % (B0 + 1) = (x :: xs).length :=
            Nat.mod_eq_of_lt hlt
          rw [hz, htl, hd0, hm0]
          have hcn : ¬((x :: xs).length = 0) := by simp
          simp [hcn]
        · have htl : ((x :: xs).take (B0 + 1)).length = B0 + 1 := by
            rw [List.length_take]
            omega
          obtain ⟨hdiv, hmod⟩ := nat_divmod_sub (x :: xs).length (B0 + 1) hB hge
          rw [htl, hdiv, hmod, List.replicate_succ]
          rfl

/- Lemmas about translate_batch and the batch loop. -/

theorem texts_to_translate_nil_iff (texts : List Str) :
    texts_to_translate texts = [] ↔ ∀ t ∈ texts, is_already_translated t = true := by
  unfold texts_to_translate
  rw [List.filter_eq_nil]
  constructor
  · intro h t ht
    have := h t ht
    simpa using this
  · intro h t ht
    simp [h t ht]

theorem translate_batch_keys (texts : List Str) (resp : RemoteResponse)
    (res : List (Str × Str)) (c s : Bool)
    (hnd : texts.Nodup)
    (h : translate_batch texts resp = BatchOutcome.ok res c s) :
    res.map Prod.fst = texts := by
  by_cases hemp : (texts_to_translate texts).isEmpty
  · simp only [translate_batch, if_pos hemp, BatchOutcome.ok.injEq] at h
    rw [← h.1]
    exact identityDict_keys texts hnd
  · simp only [translate_batch, if_neg hemp] at h
    cases resp with
    | networkError =>
      simp only [BatchOutcome.ok.injEq] at h
      rw [← h.1]
      exact identityDict_keys texts hnd
    | httpError =>
      simp only [BatchOutcome.ok.injEq] at h
      rw [← h.1]
      exact identityDict_keys texts hnd
    | nonJsonBody =>
      simp only [BatchOutcome.ok.injEq] at h
      rw [← h.1]
      exact identityDict_keys texts hnd
    | ok body =>
      cases body with
      | none => cases h
      | some translations =>
        have h0 : (match assembleResults texts translations 0 [] with
            | Except.error e => BatchOutcome.raised e
            | Except.ok results => BatchOutcome.ok results true true)
            = BatchOutcome.ok res c s := h
        rcases hassem : assembleResults texts translations 0 [] with e | results
        · rw [hassem] at h0
          cases h0
        · rw [hassem] at h0
          have h2 : BatchOutcome.ok results true true = BatchOutcome.ok res c s := h0
          simp only [BatchOutcome.ok.injEq] at h2
          rw [← h2.1]
          have := assembleResults_keys texts translations 0 [] results (by simpa) hassem
          simpa using this

theorem runBatches_keys (chunks : List (List Str)) :
    ∀ (resp : Nat → RemoteResponse) (i : Nat) (acc m : List (Str × Str)),
      (acc.map Prod.fst ++ chunks.flatten).Nodup →
      runBatches resp chunks i acc = Except.ok m →
      m.map Prod.fst = acc.map Prod.fst ++ chunks.flatten := by
  induction chunks with
  | nil =>
    intro resp i acc m hnd h
    simp only [runBatches, Except.ok.injEq] at h
    subst h
    simp
  | cons b bs ih =>
    intro resp i acc m hnd h
    rw [List.flatten_cons] at hnd
    have hbnd : b.Nodup := by
      rcases List.nodup_append.mp hnd with ⟨h1, h2, hdisj⟩
      exact (List.nodup_append.mp h2).1
    revert h
    unfold runBatches
    match htb : translate_batch b (resp i) with
    | BatchOutcome.raised e => intro h; cases h
    | BatchOutcome.ok results c s =>
      intro h
      have hkeys : results.map Prod.fst = b := translate_batch_keys b (resp i) results c s hbnd htb
      have hnd2 : (acc.map Prod.fst ++ results.map Prod.fst).Nodup := by
        rw [hkeys]
        refine List.Nodup.sublist ?_ hnd
        exact List.Sublist.append_left (List.sublist_append_left b bs.flatten) _
      have hup : (dictUpdate acc results).map Prod.fst
          = acc.map Prod.fst ++ results.map Prod.fst := dictUpdate_keys results acc hnd2
      have hnd3 : ((dictUpdate acc results).map Prod.fst ++ bs.flatten).Nodup := by
        rw [hup, hkeys, List.append_assoc]
        exact hnd
      have := ih resp (i + 1) (dictUpdate acc results) m hnd3 h
      rw [this, hup, hkeys, List.append_assoc, List.flatten_cons]

/- Claim theorems. -/

/-- C3: is_already_translated returns true exactly when the string is pure
7-bit ASCII (rule 1, checked first, so the empty string and any all-ASCII
string are skipped regardless of the allow-list) or when it contains some
allow-list token case-insensitively as a contiguous substring (rule 2);
otherwise it returns false.  The function is a pure Lean function of its
argument. -/
theorem is_already_translated_spec (s : Str) :
    is_already_translated s = true ↔
      ((∀ c ∈ s, c.toNat < 128) ∨
       ∃ p ∈ english_patterns, ∃ l r, lowerStr s = l ++ lowerStr p ++ r) := by
  unfold is_already_translated
  have hascii : isAscii s = true ↔ ∀ c ∈ s, c.toNat < 128 := by
    simp [isAscii]
  by_cases ha : isAscii s
  · simp only [if_pos ha]
    constructor
    · intro _
      exact Or.inl (hascii.mp ha)
    · intro _
      trivial
  · simp only [if_neg ha]
    rw [List.any_eq_true]
    constructor
    · rintro ⟨p, hp, hc⟩
      exact Or.inr ⟨p, hp, (containsSub_iff _ _).mp hc⟩
    · rintro (hall | ⟨p, hp, hsub⟩)
      · exact absurd (hascii.mpr hall) ha
      · exact ⟨p, hp, (containsSub_iff _ _).mpr hsub⟩

/-- C8: the endpoint is a pure function of the credential string: the free
URL is selected exactly when the credential ends with the marker, and the
paid URL exactly otherwise; the two URLs are distinct. -/
theorem api_url_spec (key : Str) :
    (api_url key = free_url ↔ ∃ l, key = l ++ fxSuffix) ∧
    (api_url key = paid_url ↔ ¬∃ l, key = l ++ fxSuffix) ∧
    free_url ≠ paid_url := by
  have hne : free_url ≠ paid_url := by decide
  by_cases hc : strEndsWith key fxSuffix = true
  · have hsel : api_url key = free_url := by rw [api_url, if_pos hc]
    have hex : ∃ l, key = l ++ fxSuffix := (strEndsWith_iff key fxSuffix).mp hc
    refine ⟨⟨fun _ => hex, fun _ => hsel⟩, ⟨?_, ?_⟩, hne⟩
    · intro hpaid
      exact absurd (hsel.symm.trans hpaid) hne
    · intro hnex
      exact absurd hex hnex
  · have hcf : api_url key = paid_url := by rw [api_url, if_neg hc]
    have hnex : ¬∃ l, key = l ++ fxSuffix :=
      fun hex => hc ((strEndsWith_iff key fxSuffix).mpr hex)
    refine ⟨⟨?_, ?_⟩, ⟨fun _ => hnex, fun _ => hcf⟩, hne⟩
    · intro hfree
      exact absurd (hcf.symm.trans hfree).symm hne
    · intro hex
      exact absurd hex hnex

/-- C5: for batch size B at least 1, the slicing yields batches whose
concatenation is the original key list, whose count is the ceiling of N/B,
and whose sizes are B for every batch except a final batch of size N mod B
when that is nonzero. -/
theorem chunkList_partition (B : Nat) (keys : List Str) (hB : 1 ≤ B) :
    (chunkList B keys).flatten = keys ∧
    (chunkList B keys).length = (keys.length + B - 1) / B ∧
    (chunkList B keys).map List.length
      = List.replicate (keys.length / B) B ++
        (if keys.length % B = 0 then [] else [keys.length % B]) :=
  chunkGo_spec B hB keys.length keys (Nat.le_refl _)

/-- Witness for C5 at five keys and batch size two: three batches of sizes
two, two and one. -/
theorem chunkList_partition_witness :
    1 ≤ 2 ∧
    ((chunkList 2 ["a".toList, "b".toList, "c".toList, "d".toList, "e".toList]).flatten
        = ["a".toList, "b".toList, "c".toList, "d".toList, "e".toList] ∧
     (chunkList 2 ["a".toList, "b".toList, "c".toList, "d".toList, "e".toList]).length
        = (["a".toList, "b".toList, "c".toList, "d".toList, "e".toList].length + 2 - 1) / 2 ∧
     (chunkList 2 ["a".toList, "b".toList, "c".toList, "d".toList, "e".toList]).map List.length
        = List.replicate (["a".toList, "b".toList, "c".toList, "d".toList, "e".toList].length / 2) 2 ++
          (if ["a".toList, "b".toList, "c".toList, "d".toList, "e".toList].length % 2 = 0 then []
           else [["a".toList, "b".toList, "c".toList, "d".toList, "e".toList].length % 2])) :=
  ⟨by decide,
   chunkList_partition 2 ["a".toList, "b".toList, "c".toList, "d".toList, "e".toList] (by decide)⟩

/-- C1: whenever translate_json_file completes on a document with distinct
keys (dict keys are unique) and a batch size of at least 1, the output dict
carries exactly the original keys, each exactly once, in order, whatever
the heuristic skipped and whichever remote calls failed. -/
theorem translate_json_file_preserves_keys (B : Nat) (keys : List Str)
    (resp : Nat → RemoteResponse) (m : List (Str × Str))
    (hB : 1 ≤ B) (hnd : keys.Nodup)
    (h : translate_json_file B keys resp = Except.ok m) :
    m.map Prod.fst = keys := by
  have hflat : (chunkList B keys).flatten = keys :=
    (chunkGo_spec B hB keys.length keys (Nat.le_refl _)).1
  have hnd2 : (([] : List (Str × Str)).map Prod.fst ++ (chunkList B keys).flatten).Nodup := by
    rw [hflat]
    simpa
  have hmain := runBatches_keys (chunkList B keys) resp 0 [] m hnd2 h
  rw [hmain]
  simpa using hflat

/-- Witness for C1 at the spec example keys with batch size two and every
remote call failing with a non-2xx status: the run completes with the same
key list, each key mapped to itself. -/
theorem translate_json_file_preserves_keys_witness :
    1 ≤ 2 ∧
    (["炎の剣".toList, "Fire Sword".toList, "盾".toList] : List Str).Nodup ∧
    translate_json_file 2 ["炎の剣".toList, "Fire Sword".toList, "盾".toList]
        (fun _ => RemoteResponse.httpError)
      = Except.ok [("炎の剣".toList, "炎の剣".toList), ("Fire Sword".toList, "Fire Sword".toList),
          ("盾".toList, "盾".toList)] ∧
    ([("炎の剣".toList, "炎の剣".toList), ("Fire Sword".toList, "Fire Sword".toList),
        ("盾".toList, "盾".toList)] : List (Str × Str)).map Prod.fst
      = ["炎の剣".toList, "Fire Sword".toList, "盾".toList] :=
  ⟨by decide, by decide, by rfl,
   translate_json_file_preserves_keys 2 ["炎の剣".toList, "Fire Sword".toList, "盾".toList]
     (fun _ => RemoteResponse.httpError)
     [("炎の剣".toList, "炎の剣".toList), ("Fire Sword".toList, "Fire Sword".toList),
       ("盾".toList, "盾".toList)]
     (by decide) (by decide) (by rfl)⟩

/-- C6: a batch in which the heuristic skips every string issues no remote
call, performs no sleep, and returns the identity dict, in which every
string of the batch maps to itself. -/
theorem translate_batch_all_skipped (texts : List Str) (resp : RemoteResponse)
    (h : ∀ t ∈ texts, is_already_translated t = true) :
    translate_batch texts resp = BatchOutcome.ok (identityDict texts) false false ∧
    ∀ t ∈ texts, dlookup t (identityDict texts) = some t := by
  have hnil : texts_to_translate texts = [] := (texts_to_translate_nil_iff texts).mpr h
  constructor
  · simp [translate_batch, hnil]
  · intro t ht
    exact identityDict_lookup texts t ht

/-- Witness for C6 at two all-ASCII strings and a malformed response body:
no call is observable and the identity dict is returned. -/
theorem translate_batch_all_skipped_witness :
    (∀ t ∈ (["Save".toList, "Menu".toList] : List Str), is_already_translated t = true) ∧
    (translate_batch ["Save".toList, "Menu".toList] (RemoteResponse.ok none)
        = BatchOutcome.ok (identityDict ["Save".toList, "Menu".toList]) false false ∧
     ∀ t ∈ (["Save".toList, "Menu".toList] : List Str),
       dlookup t (identityDict ["Save".toList, "Menu".toList]) = some t) :=
  ⟨by decide,
   translate_batch_all_skipped ["Save".toList, "Menu".toList] (RemoteResponse.ok none) (by decide)⟩

/-- C2 counterexample: a batch needing translation that receives a parsed
JSON body without a translations array does not return the identity dict;
the KeyError escapes translate_batch, contradicting the claim that any
malformed response is degraded to the identity mapping. -/
theorem translate_batch_malformed_counterexample :
    translate_batch ["盾".toList] (RemoteResponse.ok none)
      = BatchOutcome.raised PyExc.keyError ∧
    translate_batch ["盾".toList] (RemoteResponse.ok none)
      ≠ BatchOutcome.ok (identityDict ["盾".toList]) true false := by
  decide

/-- C2 amended: for failures raised as RequestException (network error,
non-2xx status, non-JSON body) translate_batch returns the identity dict
on the whole batch with no exception and no sleep; but for a parsed JSON
body lacking the translations array, with too few elements, or with an
element lacking a text field, an uncaught KeyError or IndexError escapes
to the caller whenever the batch actually needed translation. -/
theorem translate_batch_failure_modes (texts : List Str) (resp : RemoteResponse)
    (h : resp = RemoteResponse.networkError ∨ resp = RemoteResponse.httpError ∨
      resp = RemoteResponse.nonJsonBody) :
    translate_batch texts resp
      = BatchOutcome.ok (identityDict texts) (!(texts_to_translate texts).isEmpty) false ∧
    (∀ t ∈ texts, dlookup t (identityDict texts) = some t) ∧
    (texts_to_translate texts ≠ [] →
      translate_batch texts (RemoteResponse.ok none) = BatchOutcome.raised PyExc.keyError) ∧
    (texts_to_translate texts ≠ [] →
      translate_batch texts (RemoteResponse.ok (some []))
        = BatchOutcome.raised PyExc.indexError) ∧
    (texts_to_translate texts ≠ [] →
      translate_batch texts (RemoteResponse.ok (some [none]))
        = BatchOutcome.raised PyExc.keyError) := by
  refine ⟨?_, ?_, ?_, ?_, ?_⟩
  · by_cases hemp : (texts_to_translate texts).isEmpty
    · simp [translate_batch, hemp]
    · rcases h with rfl | rfl | rfl <;> simp [translate_batch, hemp]
  · intro t ht
    exact identityDict_lookup texts t ht
  · intro hne
    have hemp : ¬((texts_to_translate texts).isEmpty = true) := by
      simpa [List.isEmpty_iff] using hne
    simp [translate_batch, hemp]
  · intro hne
    have hemp : ¬((texts_to_translate texts).isEmpty = true) := by
      simpa [List.isEmpty_iff] using hne
    simp only [translate_batch, if_neg hemp]
    rw [assembleResults_empty_trans texts 0 [] hne]
  · intro hne
    have hemp : ¬((texts_to_translate texts).isEmpty = true) := by
      simpa [List.isEmpty_iff] using hne
    simp only [translate_batch, if_neg hemp]
    rw [assembleResults_noText texts [] hne]

/-- Witness for the amended C2 at a one-string batch needing translation
and a network error: the identity dict is returned after the failed call,
and each malformed parsed body raises. -/
theorem translate_batch_failure_modes_witness :
    translate_batch ["盾".toList] RemoteResponse.networkError
      = BatchOutcome.ok (identityDict ["盾".toList])
          (!(texts_to_translate ["盾".toList]).isEmpty) false ∧
    (∀ t ∈ (["盾".toList] : List Str), dlookup t (identityDict ["盾".toList]) = some t) ∧
    (texts_to_translate ["盾".toList] ≠ [] →
      translate_batch ["盾".toList] (RemoteResponse.ok none)
        = BatchOutcome.raised PyExc.keyError) ∧
    (texts_to_translate ["盾".toList] ≠ [] →
      translate_batch ["盾".toList] (RemoteResponse.ok (some []))
        = BatchOutcome.raised PyExc.indexError) ∧
    (texts_to_translate ["盾".toList] ≠ [] →
      translate_batch ["盾".toList] (RemoteResponse.ok (some [none]))
        = BatchOutcome.raised PyExc.keyError) :=
  translate_batch_failure_modes ["盾".toList] RemoteResponse.networkError (Or.inl rfl)

/-- C4: on the success path the POST payload carries exactly the batch
members the heuristic marks as needing translation, in their original
order (a subsequence of the batch), and the returned dict is the merge
walk: skipped strings map to themselves and every submitted string
consumes the next response translation in submission order. -/
theorem translate_batch_success_path (cfg : TranslatorConfig) (texts : List Str)
    (trs : List Str)
    (hnd : texts.Nodup)
    (hne : texts_to_translate texts ≠ [])
    (hlen : (texts_to_translate texts).length ≤ trs.length) :
    (mkPayload cfg texts).text = texts_to_translate texts ∧
    List.Sublist (texts_to_translate texts) texts ∧
    (∀ t ∈ texts, (t ∈ texts_to_translate texts ↔ is_already_translated t = false)) ∧
    translate_batch texts (RemoteResponse.ok (some (trs.map some)))
      = BatchOutcome.ok (mergeSpec texts trs) true true := by
  refine ⟨rfl, List.filter_sublist _, ?_, ?_⟩
  · intro t ht
    simp [texts_to_translate, List.mem_filter, ht]
  · have hemp : ¬((texts_to_translate texts).isEmpty = true) := by
      simpa [List.isEmpty_iff] using hne
    have hval := assembleResults_val texts trs 0 [] (by simpa) (by simpa using hlen)
    simp only [List.drop_zero, List.nil_append] at hval
    simp only [translate_batch, if_neg hemp]
    rw [hval]

/-- Witness for C4 at the spec example: the request carries the sword and
shield strings, the ASCII string is skipped, and the simulated response is
consumed in order, giving the documented output dict. -/
theorem translate_batch_success_path_witness :
    (["炎の剣".toList, "Fire Sword".toList, "盾".toList] : List Str).Nodup ∧
    texts_to_translate ["炎の剣".toList, "Fire Sword".toList, "盾".toList] ≠ [] ∧
    (texts_to_translate ["炎の剣".toList, "Fire Sword".toList, "盾".toList]).length
      ≤ (["Flame Sword".toList, "Shield".toList] : List Str).length ∧
    texts_to_translate ["炎の剣".toList, "Fire Sword".toList, "盾".toList]
      = ["炎の剣".toList, "盾".toList] ∧
    ((mkPayload ⟨"key".toList, "JA".toList, "EN".toList, 1, 3, "in.json".toList,
          "out.json".toList⟩
        ["炎の剣".toList, "Fire Sword".toList, "盾".toList]).text
        = texts_to_translate ["炎の剣".toList, "Fire Sword".toList, "盾".toList] ∧
     List.Sublist (texts_to_translate ["炎の剣".toList, "Fire Sword".toList, "盾".toList])
        ["炎の剣".toList, "Fire Sword".toList, "盾".toList] ∧
     (∀ t ∈ (["炎の剣".toList, "Fire Sword".toList, "盾".toList] : List Str),
       (t ∈ texts_to_translate ["炎の剣".toList, "Fire Sword".toList, "盾".toList] ↔
         is_already_translated t = false)) ∧
     translate_batch ["炎の剣".toList, "Fire Sword".toList, "盾".toList]
         (RemoteResponse.ok (some (["Flame Sword".toList, "Shield".toList].map some)))
       = BatchOutcome.ok
           (mergeSpec ["炎の剣".toList, "Fire Sword".toList, "盾".toList]
             ["Flame Sword".toList, "Shield".toList]) true true) ∧
    mergeSpec ["炎の剣".toList, "Fire Sword".toList, "盾".toList]
        ["Flame Sword".toList, "Shield".toList]
      = [("炎の剣".toList, "Flame Sword".toList), ("Fire Sword".toList, "Fire Sword".toList),
         ("盾".toList, "Shield".toList)] :=
  ⟨by decide, by decide, by decide, by decide,
   translate_batch_success_path
     ⟨"key".toList, "JA".toList, "EN".toList, 1, 3, "in.json".toList, "out.json".toList⟩
     ["炎の剣".toList, "Fire Sword".toList, "盾".toList]
     ["Flame Sword".toList, "Shield".toList]
     (by decide) (by decide) (by decide),
   by decide⟩

/-- C7: among non-raising outcomes of translate_batch, the sleep ran
exactly when a remote call was issued and the exchange returned a parsed
body carrying a translations array (the success path), and a remote call
was issued exactly when some string needed translation; so no sleep
happens for an all-skipped batch or for a failed call. -/
theorem translate_batch_sleep_policy (texts : List Str) (resp : RemoteResponse)
    (res : List (Str × Str)) (c s : Bool)
    (h : translate_batch texts resp = BatchOutcome.ok res c s) :
    (s = true ↔ (c = true ∧ ∃ trs, resp = RemoteResponse.ok (some trs))) ∧
    (c = true ↔ texts_to_translate texts ≠ []) := by
  by_cases hemp : (texts_to_translate texts).isEmpty
  · simp only [translate_batch, if_pos hemp, BatchOutcome.ok.injEq] at h
    obtain ⟨h1, h2, h3⟩ := h
    subst h2
    subst h3
    have : texts_to_translate texts = [] := List.isEmpty_iff.mp hemp
    simp [this]
  · have hne : texts_to_translate texts ≠ [] := by
      simpa [List.isEmpty_iff] using hemp
    simp only [translate_batch, if_neg hemp] at h
    cases resp with
    | networkError =>
      simp only [BatchOutcome.ok.injEq] at h
      obtain ⟨h1, h2, h3⟩ := h
      subst h2
      subst h3
      simp [hne]
    | httpError =>
      simp only [BatchOutcome.ok.injEq] at h
      obtain ⟨h1, h2, h3⟩ := h
      subst h2
      subst h3
      simp [hne]
    | nonJsonBody =>
      simp only [BatchOutcome.ok.injEq] at h
      obtain ⟨h1, h2, h3⟩ := h
      subst h2
      subst h3
      simp [hne]
    | ok body =>
      cases body with
      | none => cases h
      | some translations =>
        have h0 : (match assembleResults texts translations 0 [] with
            | Except.error e => BatchOutcome.raised e
            | Except.ok results => BatchOutcome.ok results true true)
            = BatchOutcome.ok res c s := h
        rcases hassem : assembleResults texts translations 0 [] with e | results
        · rw [hassem] at h0
          cases h0
        · rw [hassem] at h0
          have h2 : BatchOutcome.ok results true true = BatchOutcome.ok res c s := h0
          simp only [BatchOutcome.ok.injEq] at h2
          obtain ⟨hr, hc, hs⟩ := h2
          subst hc
          subst hs
          exact ⟨by simp, by simp [hne]⟩

/-- Witness for C7 at a successful one-string batch: the call was made and
the sleep ran. -/
theorem translate_batch_sleep_policy_witness :
    translate_batch ["盾".toList] (RemoteResponse.ok (some [some "Shield".toList]))
      = BatchOutcome.ok [("盾".toList, "Shield".toList)] true true ∧
    ((true = true ↔ (true = true ∧ ∃ trs,
        RemoteResponse.ok (some [some "Shield".toList]) = RemoteResponse.ok (some trs))) ∧
     (true = true ↔ texts_to_translate ["盾".toList] ≠ [])) :=
  ⟨by decide,
   translate_batch_sleep_policy ["盾".toList]
     (RemoteResponse.ok (some [some "Shield".toList]))
     [("盾".toList, "Shield".toList)] true true (by decide)⟩

/-- C9: every fatal condition terminates the process with exit status 1
(nonzero) before any output file is written: missing configuration file,
malformed configuration, placeholder credential (whose ValueError is not
caught by the two except clauses and kills the interpreter with status 1),
and missing input document. -/
theorem run_program_fatal_exit (cfgSrc : ConfigSource) (inp : InputSource)
    (resp : Nat → RemoteResponse)
    (h : cfgSrc = ConfigSource.missing ∨ cfgSrc = ConfigSource.invalidJson ∨
      (∃ cfg, cfgSrc = ConfigSource.parsed cfg ∧ cfg.deepl_api_key = placeholder_key) ∨
      inp = InputSource.missing) :
    run_program cfgSrc inp resp = ProgResult.exited 1 false ∧ (1 : Nat) ≠ 0 := by
  refine ⟨?_, by omega⟩
  rcases h with rfl | rfl | ⟨cfg, rfl, hkey⟩ | rfl
  · rfl
  · rfl
  · simp [run_program, hkey]
  · cases cfgSrc with
    | missing => rfl
    | invalidJson => rfl
    | parsed cfg =>
      by_cases hkey : cfg.deepl_api_key = placeholder_key
      · simp [run_program, hkey]
      · simp [run_program, hkey]

/-- Witness for C9 at a configuration holding the literal placeholder
credential: the process exits with status 1 and no output is written. -/
theorem run_program_fatal_exit_witness :
    run_program
        (ConfigSource.parsed
          ⟨placeholder_key, "JA".toList, "EN".toList, 1, 10, "in.json".toList,
            "out.json".toList⟩)
        (InputSource.present []) (fun _ => RemoteResponse.networkError)
      = ProgResult.exited 1 false ∧ (1 : Nat) ≠ 0 :=
  run_program_fatal_exit
    (ConfigSource.parsed
      ⟨placeholder_key, "JA".toList, "EN".toList, 1, 10, "in.json".toList, "out.json".toList⟩)
    (InputSource.present []) (fun _ => RemoteResponse.networkError)
    (Or.inr (Or.inr (Or.inl ⟨_, rfl, rfl⟩)))

/-- C10: when the response carries at least as many well-formed translation
elements as there are submitted strings, the merge walk never raises: every
index access is in bounds (no IndexError, and with text fields present no
KeyError), because the walk consumes exactly one translation per string
submitted by the filtering pass; and any extra elements beyond the number
of submitted strings are ignored, since truncating the array to that count
leaves the outcome unchanged. -/
theorem translate_batch_index_safe (texts : List Str) (trs : List Str)
    (hlen : (texts_to_translate texts).length ≤ trs.length) :
    translate_batch texts (RemoteResponse.ok (some (trs.map some)))
        ≠ BatchOutcome.raised PyExc.indexError ∧
    translate_batch texts (RemoteResponse.ok (some (trs.map some)))
        ≠ BatchOutcome.raised PyExc.keyError ∧
    translate_batch texts (RemoteResponse.ok (some (trs.map some)))
      = translate_batch texts
          (RemoteResponse.ok
            (some ((trs.take (texts_to_translate texts).length).map some))) := by
  by_cases hemp : (texts_to_translate texts).isEmpty
  · refine ⟨?_, ?_, ?_⟩ <;> simp [translate_batch, hemp]
  · obtain ⟨res, hres⟩ := assembleResults_ok texts (trs.map some) 0 []
      (by simpa using hlen)
      (by
        intro o ho
        rcases List.mem_map.mp ho with ⟨a, ha, rfl⟩
        simp)
    have hext := assembleResults_ext texts (trs.map some)
      ((trs.take (texts_to_translate texts).length).map some) 0 []
      (by
        intro j h0 hj
        rw [List.get?_map, List.get?_map, List.get?_take (by omega)])
    refine ⟨?_, ?_, ?_⟩
    · simp only [translate_batch, if_neg hemp]
      rw [hres]
      simp
    · simp only [translate_batch, if_neg hemp]
      rw [hres]
      simp
    · simp only [translate_batch, if_neg hemp]
      rw [hext]

/-- Witness for C10 at a one-string batch and a two-element response: no
exception, and the extra element is ignored. -/
theorem translate_batch_index_safe_witness :
    (texts_to_translate ["盾".toList]).length
      ≤ (["Shield".toList, "Extra".toList] : List Str).length ∧
    (translate_batch ["盾".toList]
        (RemoteResponse.ok (some (["Shield".toList, "Extra".toList].map some)))
        ≠ BatchOutcome.raised PyExc.indexError ∧
     translate_batch ["盾".toList]
        (RemoteResponse.ok (some (["Shield".toList, "Extra".toList].map some)))
        ≠ BatchOutcome.raised PyExc.keyError ∧
     translate_batch ["盾".toList]
        (RemoteResponse.ok (some (["Shield".toList, "Extra".toList].map some)))
      = translate_batch ["盾".toList]
          (RemoteResponse.ok
            (some ((["Shield".toList, "Extra".toList].take
              (texts_to_translate ["盾".toList]).length).map some)))) :=
  ⟨by decide,
   translate_batch_index_safe ["盾".toList] ["Shield".toList, "Extra".toList] (by decide)⟩
